import Mathlib

/-!
Verification of the framecut clip-sequencing player.

Times are modelled as exact rationals (`ℚ`); the TypeScript source uses IEEE
doubles, and the spec's "within floating-point tolerance" clauses become exact
equalities here.  Each definition below is a direct transcription of the
function of the same name in the source (`src/components/Player.tsx`,
`src/components/ClipItem.tsx`, `src/utils.ts`, and the top-level app component).
-/

namespace Framecut

/-- Mirror of `Clip` from `src/types.ts` (the `file` handle is irrelevant to the
claims and omitted; `end` is a Lean keyword, hence the guillemets). -/
structure Clip where
  id : String
  url : String
  name : String
  originalDuration : ℚ
  start : ℚ
  «end» : ℚ
  fps : ℚ
  isSelected : Bool
  deriving DecidableEq, Repr

/-- A sequence entry as built by the `sequence` memo in `Player.tsx`
(lines 299-311): the clip spread together with its accumulated window. -/
structure SeqEntry where
  clip : Clip
  sequenceStart : ℚ
  sequenceDuration : ℚ
  sequenceEnd : ℚ
  deriving DecidableEq, Repr

/-- The fold of the `sequence` memo, with the running `accumulatedTime`. -/
def deriveSequenceAux (acc : ℚ) : List Clip → List SeqEntry
  | [] => []
  | c :: rest =>
    let duration := c.«end» - c.start
    { clip := c
      sequenceStart := acc
      sequenceDuration := duration
      sequenceEnd := acc + duration } :: deriveSequenceAux (acc + duration) rest

/-- `Player.tsx` lines 299-311: map each clip to its sequence entry,
accumulating trimmed durations from 0. -/
def deriveSequence (clips : List Clip) : List SeqEntry :=
  deriveSequenceAux 0 clips

/-- `Player.tsx` lines 313-315: `sequence.length > 0 ? last.sequenceEnd : 0`. -/
def totalDuration (seq : List SeqEntry) : ℚ :=
  match seq.getLast? with
  | some e => e.sequenceEnd
  | none => 0

/-- `clamp(value, min, max) = Math.min(max, Math.max(min, value))` from
`ClipItem.tsx` (the Player has the same helper). -/
def clamp (value lo hi : ℚ) : ℚ :=
  min hi (max lo value)

/-- The entry-resolution step shared by `seekToGlobalTime`, the preview worker
and the preview RAF callback:
`sequence.find(c => t >= c.sequenceStart && t < c.sequenceEnd) || sequence[sequence.length - 1]`. -/
def findTargetEntry (seq : List SeqEntry) (t : ℚ) : Option SeqEntry :=
  match seq.find? (fun e => decide (e.sequenceStart ≤ t ∧ t < e.sequenceEnd)) with
  | some e => some e
  | none => seq.getLast?

/-- `seekToGlobalTime` from `Player.tsx` lines 472-497, reduced to its
time resolution: clamp the request to `[0, totalDuration]`, resolve the target
entry, and return the (unclamped) local seek time
`targetClip.start + (seekTime - targetClip.sequenceStart)`.
Returns `none` exactly when the sequence is empty (`if (targetClip)` fails). -/
def seekToGlobalTime (seq : List SeqEntry) (time : ℚ) : Option (SeqEntry × ℚ) :=
  let seekTime := max 0 (min time (totalDuration seq))
  match findTargetEntry seq seekTime with
  | some e => some (e, e.clip.start + (seekTime - e.sequenceStart))
  | none => none

/-- The commit-seek resolver in the spec's words: clamp the request, select the
entry whose half-open window `[sequenceStart, sequenceEnd)` contains it (last
entry as fallback), and clamp the local time
`entry.start + (globalTime - entry.sequenceStart)` to `[entry.start, entry.end]`.
This is also literally the preview-worker mapping of `Player.tsx`
lines 605-615. -/
def specCommitSeek (seq : List SeqEntry) (time : ℚ) : Option (SeqEntry × ℚ) :=
  let seekTime := max 0 (min time (totalDuration seq))
  match findTargetEntry seq seekTime with
  | some e =>
    some (e, clamp (e.clip.start + (seekTime - e.sequenceStart)) e.clip.start e.clip.«end»)
  | none => none

/-- `toGlobalTimeFromLocal` from `ClipItem.tsx` lines 128-131:
`sequenceStart + (clamp(localTime, clip.start, clip.end) - clip.start)`. -/
def toGlobalTimeFromLocal (e : SeqEntry) (localTime : ℚ) : ℚ :=
  e.sequenceStart + (clamp localTime e.clip.start e.clip.«end» - e.clip.start)

/-- Sum of trimmed durations `end - start` of a clip list. -/
def sumDur : List Clip → ℚ
  | [] => 0
  | c :: rest => (c.«end» - c.start) + sumDur rest

/-- The three untrimmed example clips of the spec scenario: original durations
10 s, 5 s and 8 s. -/
def ex3 : List Clip :=
  [ { id := "c1", url := "u1", name := "n1", originalDuration := 10,
      start := 0, «end» := 10, fps := 30, isSelected := true }
  , { id := "c2", url := "u2", name := "n2", originalDuration := 5,
      start := 0, «end» := 5, fps := 30, isSelected := false }
  , { id := "c3", url := "u3", name := "n3", originalDuration := 8,
      start := 0, «end» := 8, fps := 30, isSelected := false } ]

/-- The claim of C1 that the commit path's unclamped local time already agrees
with the spec's clamped formula. -/
def commitSeekAgrees (clips : List Clip) (t : ℚ) : Prop :=
  seekToGlobalTime (deriveSequence clips) t = specCommitSeek (deriveSequence clips) t

/-! ### `src/utils.ts` -/

/-- JavaScript `s.padStart(2, '0')`. -/
def padStart2 (s : String) : String :=
  if s.length < 2 then String.mk (List.replicate (2 - s.length) '0') ++ s else s

/-- JavaScript truncation toward zero, used by the `%` remainder operator. -/
def qtrunc (q : ℚ) : ℤ :=
  if 0 ≤ q then ⌊q⌋ else -⌊-q⌋

/-- JavaScript `a % b` (remainder with the sign of `a`) for finite operands. -/
def jsRem (a b : ℚ) : ℚ :=
  a - b * (qtrunc (a / b) : ℤ)

/-- `formatTimecode` from `src/utils.ts` lines 5-15: `SS:FF` with a frame base
of 60 (`frames = Math.round(fractional * 60)`). -/
def formatTimecode (totalSeconds : ℚ) : String :=
  let seconds : ℤ := ⌊totalSeconds⌋
  let fractional : ℚ := totalSeconds - (seconds : ℤ)
  let frames : ℤ := round (fractional * 60)
  let sStr := padStart2 (toString seconds)
  let fStr := padStart2 (toString frames)
  sStr ++ ":" ++ fStr

/-- `formatDurationDisplay` from `src/utils.ts` lines 20-31: `MM:SS.FF`, same
fixed frame base of 60. -/
def formatDurationDisplay (totalSeconds : ℚ) : String :=
  let minutes : ℤ := ⌊totalSeconds / 60⌋
  let seconds : ℤ := ⌊jsRem totalSeconds 60⌋
  let fractional : ℚ := totalSeconds - (⌊totalSeconds⌋ : ℤ)
  let frames : ℤ := round (fractional * 60)
  let mStr := padStart2 (toString minutes)
  let sStr := padStart2 (toString seconds)
  let fStr := padStart2 (toString frames)
  mStr ++ ":" ++ sStr ++ "." ++ fStr

/-! ### Trimming (`ClipItem.tsx` and the app component) -/

/-- `ClipItem.tsx` line 65: `Number.isFinite(clip.fps) && clip.fps > 0 ?
clip.fps : 60` (a rational is always finite). -/
def fpsOf (c : Clip) : ℚ :=
  if 0 < c.fps then c.fps else 60

/-- `ClipItem.tsx` line 67: `minDuration = Math.max(0.1, 1 / fps)`. -/
def minDuration (c : Clip) : ℚ :=
  max (1/10) (1 / fpsOf c)

/-- `handleTrimEnd` from `ClipItem.tsx` lines 69-75: trim `frames` frames
(at least 1) off the end, clamped so at least `minDuration` remains. -/
def handleTrimEnd (c : Clip) (trimFrames : ℚ) : Clip :=
  let frames : ℤ := max 1 (round trimFrames)
  let trimAmount : ℚ := (frames : ℤ) / fpsOf c
  let newEnd := max (c.start + minDuration c) (c.«end» - trimAmount)
  { c with «end» := newEnd }

/-- The `'start'` branch of `beginTrim`'s `onMove` (`ClipItem.tsx`
lines 157-177): `nextStart = clamp(t, 0, curEnd - minDuration)`; a clip whose
`originalDuration` is not positive is left untouched (`if (dur <= 0) return`). -/
def trimDragStart (c : Clip) (t : ℚ) : Clip :=
  if c.originalDuration ≤ 0 then c
  else { c with start := clamp t 0 (c.«end» - minDuration c) }

/-- The `'end'` branch of `beginTrim`'s `onMove`:
`nextEnd = clamp(t, curStart + minDuration, dur)`. -/
def trimDragEnd (c : Clip) (t : ℚ) : Clip :=
  if c.originalDuration ≤ 0 then c
  else { c with «end» := clamp t (c.start + minDuration c) c.originalDuration }

/-- `handleBatchTrim` from the app component (`src/unnamed/part_001`
lines 463-469), applied to one clip: `trimAmount = 18 / 60` and
`newEnd = Math.max(c.start + 0.1, c.end - trimAmount)`. -/
def batchTrimClip (c : Clip) : Clip :=
  let trimAmount : ℚ := 18 / 60
  { c with «end» := max (c.start + 1/10) (c.«end» - trimAmount) }

/-- `handleBatchTrim` maps `batchTrimClip` over the whole clip list. -/
def handleBatchTrim (clips : List Clip) : List Clip :=
  clips.map batchTrimClip

/-- The clip trim invariant: nonnegative start, at least `minDuration` between
the trim points, and the end within the original footage. -/
def ClipInv (c : Clip) : Prop :=
  0 ≤ c.start ∧ c.start + minDuration c ≤ c.«end» ∧ c.«end» ≤ c.originalDuration

instance (c : Clip) : Decidable (ClipInv c) := by
  unfold ClipInv; infer_instance

/-- A 5 fps clip trimmed to a window of 0.25 s (≥ one frame = 0.2 s). -/
def badClip : Clip :=
  { id := "b", url := "ub", name := "nb", originalDuration := 10,
    start := 0, «end» := 1/4, fps := 5, isSelected := false }

/-! ### Preview / commit state machine (`Player.tsx`) -/

/-- The restore snapshot captured by `previewAtGlobalTime`
(`Player.tsx` lines 746-750). -/
structure Snapshot where
  src : String
  localTime : ℚ
  globalTime : ℚ
  deriving DecidableEq, Repr

/-- The part of the player's state the preview and seek operations touch:
the video element's `src` and `currentTime`, the `globalTimeDisplay` React
state, the previewing flag and restore ref, and the active clip id.
An absent `src` attribute is modelled as `""`. -/
structure PlayerState where
  videoSrc : String
  videoTime : ℚ
  globalTimeDisplay : ℚ
  isPreviewing : Bool
  previewRestore : Option Snapshot
  activeClipId : String
  deriving DecidableEq, Repr

/-- `previewAtGlobalTime` from `Player.tsx` lines 738-802, with its deferred
RAF seek applied: clamp the request; on the first call capture the restore
snapshot and raise the previewing flag; update the display; resolve the target
entry and move the preview video there (local time clamped as in the source). -/
def previewAtGlobalTime (seq : List SeqEntry) (s : PlayerState) (time : ℚ) :
    PlayerState :=
  if seq = [] then s
  else
    let seekTime := max 0 (min time (totalDuration seq))
    let s1 :=
      if s.isPreviewing then s
      else { s with
              isPreviewing := true
              previewRestore := some ⟨s.videoSrc, s.videoTime, s.globalTimeDisplay⟩ }
    let s2 := { s1 with globalTimeDisplay := seekTime }
    match findTargetEntry seq seekTime with
    | none => s2
    | some e =>
      let localTime := clamp (e.clip.start + (seekTime - e.sequenceStart))
        e.clip.start e.clip.«end»
      { s2 with videoSrc := e.clip.url, videoTime := localTime }

/-- `endPreview` from `Player.tsx` lines 714-736: a no-op unless previewing;
otherwise clear the flag and the restore ref, and restore the committed
clip's source (falling back to the snapshot's source) at the snapshot's local
time, and the snapshot's display position. -/
def endPreview (seq : List SeqEntry) (s : PlayerState) : PlayerState :=
  if s.isPreviewing = false then s
  else
    let s1 := { s with isPreviewing := false, previewRestore := none }
    match s.previewRestore with
    | none => s1
    | some r =>
      let committed := seq.find? (fun e => decide (e.clip.id = s.activeClipId))
      let src := match committed with
        | some c => c.clip.url
        | none => r.src
      if src = "" then { s1 with globalTimeDisplay := r.globalTime }
      else { s1 with
              videoSrc := src
              videoTime := r.localTime
              globalTimeDisplay := r.globalTime }

/-- The state update of `seekToGlobalTime` (`Player.tsx` lines 472-497):
always set the display to the clamped time; when a target entry resolves,
switch the active clip and seek the video to the local time. -/
def seekStep (seq : List SeqEntry) (s : PlayerState) (time : ℚ) : PlayerState :=
  let seekTime := max 0 (min time (totalDuration seq))
  let s1 := { s with globalTimeDisplay := seekTime }
  match findTargetEntry seq seekTime with
  | none => s1
  | some e =>
    let localSeekTime := e.clip.start + (seekTime - e.sequenceStart)
    { s1 with
        activeClipId := e.clip.id
        videoSrc := e.clip.url
        videoTime := localSeekTime }

/-! ### Natural end-of-clip advance (`Player.tsx` lines 443-469) -/

/-- Playback state for `handleTimeUpdate`: the active entry index, the video's
local time, and whether the video is playing. -/
structure PlaybackState where
  activeIndex : Nat
  localTime : ℚ
  playing : Bool
  deriving DecidableEq, Repr

/-- The end-of-clip branch of `handleTimeUpdate` (`Player.tsx` lines 461-469),
with scrubbing off: when the local time has reached the active clip's trimmed
end, advance to `(activeClipIndex + 1) % sequence.length`, seek to that entry's
trimmed start, and play. -/
def handleTimeUpdateStep (seq : List SeqEntry) (s : PlaybackState) :
    PlaybackState :=
  match seq.get? s.activeIndex with
  | none => s
  | some activeClip =>
    if activeClip.clip.«end» ≤ s.localTime then
      let nextIndex := (s.activeIndex + 1) % seq.length
      match seq.get? nextIndex with
      | none => s
      | some nextClip =>
        { activeIndex := nextIndex, localTime := nextClip.clip.start, playing := true }
    else s

/-- The index map of the natural advance: `(i + 1) % sequence.length`. -/
def autoAdvance (seq : List SeqEntry) (i : Nat) : Nat :=
  (i + 1) % seq.length

/-! ### Preview thumbnail request coalescing (`Player.tsx` lines 535-573) -/

/-- `timelinePreviewCaptureTimeRef.current = seekTime`: every new request
overwrites the single pending-target cell. -/
def overwriteRequest (_cell : Option ℚ) (t : ℚ) : Option ℚ :=
  some t

/-- One iteration of the preview worker: read the latest pending target; if
none, render nothing; otherwise null the cell and render that target.
Returns the new cell and the rendered target. -/
def workerIteration (cell : Option ℚ) : Option ℚ × Option ℚ :=
  match cell with
  | none => (none, none)
  | some t => (none, some t)

/-! ### Structural lemmas about the derived sequence -/

theorem length_deriveSequenceAux (acc : ℚ) (clips : List Clip) :
    (deriveSequenceAux acc clips).length = clips.length := by
  induction clips generalizing acc with
  | nil => rfl
  | cons c rest ih => simp [deriveSequenceAux, ih]

theorem deriveSequenceAux_eq_nil_iff (acc : ℚ) (clips : List Clip) :
    deriveSequenceAux acc clips = [] ↔ clips = [] := by
  cases clips <;> simp [deriveSequenceAux]

theorem mem_deriveSequenceAux_spec {acc : ℚ} {clips : List Clip} {e : SeqEntry}
    (h : e ∈ deriveSequenceAux acc clips) :
    e.sequenceEnd = e.sequenceStart + (e.clip.«end» - e.clip.start) := by
  induction clips generalizing acc with
  | nil => simp [deriveSequenceAux] at h
  | cons c rest ih =>
    simp only [deriveSequenceAux, List.mem_cons] at h
    rcases h with h | h
    · subst h; rfl
    · exact ih h

theorem coverage_deriveSequenceAux (clips : List Clip) (acc t : ℚ)
    (h0 : acc ≤ t) (h1 : t < acc + sumDur clips) :
    ∃ e ∈ deriveSequenceAux acc clips, e.sequenceStart ≤ t ∧ t < e.sequenceEnd := by
  induction clips generalizing acc with
  | nil =>
    simp only [sumDur, add_zero] at h1
    exact absurd h1 (not_lt.mpr h0)
  | cons c rest ih =>
    by_cases hc : t < acc + (c.«end» - c.start)
    · refine ⟨_, List.mem_cons_self _ _, h0, ?_⟩
      simpa using hc
    · have h0' : acc + (c.«end» - c.start) ≤ t := not_lt.mp hc
      have h1' : t < acc + (c.«end» - c.start) + sumDur rest := by
        simp only [sumDur] at h1; linarith
      obtain ⟨e, he, hs, hend⟩ := ih _ h0' h1'
      exact ⟨e, List.mem_cons_of_mem _ he, hs, hend⟩

theorem getLast_deriveSequenceAux {clips : List Clip} (h : clips ≠ []) (acc : ℚ) :
    ∃ l, (deriveSequenceAux acc clips).getLast? = some l ∧
      l.sequenceEnd = acc + sumDur clips := by
  induction clips generalizing acc with
  | nil => exact absurd rfl h
  | cons c rest ih =>
    cases rest with
    | nil =>
      refine ⟨_, List.getLast?_singleton _, ?_⟩
      simp [sumDur]
    | cons c2 r2 =>
      obtain ⟨l, hl, hend⟩ := ih (by simp) (acc + (c.«end» - c.start))
      refine ⟨l, ?_, ?_⟩
      · show (deriveSequenceAux acc (c :: c2 :: r2)).getLast? = some l
        rw [show deriveSequenceAux acc (c :: c2 :: r2) =
          _ :: deriveSequenceAux (acc + (c.«end» - c.start)) (c2 :: r2) from rfl]
        rw [show deriveSequenceAux (acc + (c.«end» - c.start)) (c2 :: r2) =
          _ :: deriveSequenceAux _ r2 from rfl] at hl ⊢
        rw [List.getLast?_cons_cons]
        exact hl
      · rw [hend]; simp only [sumDur]; ring

theorem totalDuration_deriveSequence {clips : List Clip} (h : clips ≠ []) :
    totalDuration (deriveSequence clips) = sumDur clips := by
  obtain ⟨l, hl, hend⟩ := getLast_deriveSequenceAux h 0
  simp [totalDuration, deriveSequence, hl, hend]

theorem sumDur_nonneg {clips : List Clip}
    (h : ∀ c ∈ clips, c.start ≤ c.«end») : 0 ≤ sumDur clips := by
  induction clips with
  | nil => simp [sumDur]
  | cons c rest ih =>
    have hc := h c (List.mem_cons_self _ _)
    have hr := ih fun x hx => h x (List.mem_cons_of_mem _ hx)
    simp only [sumDur]
    linarith

theorem head_deriveSequenceAux (clips : List Clip) (acc : ℚ)
    (h : 0 < (deriveSequenceAux acc clips).length) :
    ((deriveSequenceAux acc clips).get ⟨0, h⟩).sequenceStart = acc := by
  cases clips with
  | nil => simp [deriveSequenceAux] at h
  | cons c rest => rfl

theorem adjacent_deriveSequenceAux (clips : List Clip) (acc : ℚ) (i : Nat)
    (h : i + 1 < (deriveSequenceAux acc clips).length) :
    ((deriveSequenceAux acc clips).get ⟨i + 1, h⟩).sequenceStart =
    ((deriveSequenceAux acc clips).get ⟨i, Nat.lt_of_succ_lt h⟩).sequenceEnd := by
  induction clips generalizing acc i with
  | nil => simp [deriveSequenceAux] at h
  | cons c rest ih =>
    cases i with
    | zero =>
      have hlen : 0 < (deriveSequenceAux (acc + (c.«end» - c.start)) rest).length := by
        have h' := h
        simp only [deriveSequenceAux, List.length_cons] at h'
        omega
      exact head_deriveSequenceAux rest (acc + (c.«end» - c.start)) hlen
    | succ k =>
      have h' : k + 1 < (deriveSequenceAux (acc + (c.«end» - c.start)) rest).length := by
        have h'' := h
        simp only [deriveSequenceAux, List.length_cons] at h''
        omega
      exact ih (acc + (c.«end» - c.start)) k h'

/-! ### Clamp lemmas -/

theorem clamp_of_mem {v lo hi : ℚ} (h1 : lo ≤ v) (h2 : v ≤ hi) :
    clamp v lo hi = v := by
  unfold clamp
  rw [max_eq_right h1, min_eq_right h2]

theorem clamp_top {v lo hi : ℚ} (h1 : hi ≤ v) : clamp v lo hi = hi := by
  unfold clamp
  exact min_eq_left (le_trans h1 (le_max_right lo v))

theorem clamp_mem_Icc (v : ℚ) {lo hi : ℚ} (h : lo ≤ hi) :
    lo ≤ clamp v lo hi ∧ clamp v lo hi ≤ hi :=
  ⟨le_min h (le_max_left lo v), min_le_left hi _⟩

/-- On a derived sequence, the resolved entry's unclamped local time
`entry.start + (st - entry.sequenceStart)` already lies in
`[entry.start, entry.end]`, so the clamp of the preview path is the
identity there. -/
theorem findTargetEntry_local_clamped {clips : List Clip} {st : ℚ} {e : SeqEntry}
    (hval : ∀ c ∈ clips, c.start ≤ c.«end»)
    (hge : 0 ≤ st) (hle : st ≤ totalDuration (deriveSequence clips))
    (hf : findTargetEntry (deriveSequence clips) st = some e) :
    clamp (e.clip.start + (st - e.sequenceStart)) e.clip.start e.clip.«end» =
      e.clip.start + (st - e.sequenceStart) := by
  unfold findTargetEntry at hf
  cases hfind : (deriveSequence clips).find?
      (fun x => decide (x.sequenceStart ≤ st ∧ st < x.sequenceEnd)) with
  | some e' =>
    rw [hfind] at hf
    cases hf
    have hp : e.sequenceStart ≤ st ∧ st < e.sequenceEnd := by
      simpa using List.find?_some hfind
    have hm : e ∈ deriveSequenceAux 0 clips := List.mem_of_find?_eq_some hfind
    have hsp := mem_deriveSequenceAux_spec hm
    have hlo : e.clip.start ≤ e.clip.start + (st - e.sequenceStart) := by
      linarith [hp.1]
    have hhi : e.clip.start + (st - e.sequenceStart) ≤ e.clip.«end» := by
      have h2 := hp.2
      rw [hsp] at h2
      linarith
    exact clamp_of_mem hlo hhi
  | none =>
    rw [hfind] at hf
    have hf' : (deriveSequence clips).getLast? = some e := hf
    have hne : clips ≠ [] := by
      intro hc
      subst hc
      simp [deriveSequence, deriveSequenceAux] at hf'
    have htot : totalDuration (deriveSequence clips) = sumDur clips :=
      totalDuration_deriveSequence hne
    have hsteq : st = totalDuration (deriveSequence clips) := by
      by_contra hneq
      have hlt : st < totalDuration (deriveSequence clips) :=
        lt_of_le_of_ne hle hneq
      rw [htot] at hlt
      obtain ⟨x, hmem, hcond⟩ :=
        coverage_deriveSequenceAux clips 0 st hge (by linarith)
      have hnone := List.find?_eq_none.mp hfind x hmem
      simp only [decide_eq_true_eq] at hnone
      exact hnone hcond
    have hm : e ∈ deriveSequenceAux 0 clips := by
      obtain ⟨ys, hys⟩ := List.getLast?_eq_some_iff.mp hf'
      have : e ∈ ys ++ [e] := by simp
      rwa [← hys] at this
    have hsp := mem_deriveSequenceAux_spec hm
    have hstend : st = e.sequenceEnd := by
      rw [hsteq]
      simp [totalDuration, hf']
    have hloc : e.clip.start + (st - e.sequenceStart) = e.clip.«end» := by
      rw [hstend, hsp]
      ring
    rw [hloc]
    exact clamp_top le_rfl

/-- C1: for every non-empty clip list and every requested global time, the
commit-seek resolver clamps the request to `[0, totalDuration]`, resolves the
entry by the half-open-window rule with last-entry fallback, and its local
time agrees with the spec's clamped formula
`clamp(entry.start + (t - entry.sequenceStart), entry.start, entry.end)`
(`commitSeekAgrees`); concretely, on three untrimmed clips of durations
10 s, 5 s, 8 s, global time 12 resolves to clip `c2` at local time 2, and
global time 23 resolves to clip `c3` at local time 8 — its trimmed end. -/
theorem commitSeek_resolves_clamped (clips : List Clip) (t : ℚ)
    (hne : clips ≠ []) (hval : ∀ c ∈ clips, c.start ≤ c.«end») :
    commitSeekAgrees clips t ∧
    (seekToGlobalTime (deriveSequence ex3) 12).map (fun p => (p.1.clip.id, p.2)) =
      some ("c2", 2) ∧
    (seekToGlobalTime (deriveSequence ex3) 23).map (fun p => (p.1.clip.id, p.2)) =
      some ("c3", 8) := by
  refine ⟨?_, by with_unfolding_all decide, by with_unfolding_all decide⟩
  have htotpos : 0 ≤ totalDuration (deriveSequence clips) := by
    rw [totalDuration_deriveSequence hne]
    exact sumDur_nonneg hval
  have hge : 0 ≤ max 0 (min t (totalDuration (deriveSequence clips))) :=
    le_max_left _ _
  have hle : max 0 (min t (totalDuration (deriveSequence clips))) ≤
      totalDuration (deriveSequence clips) :=
    max_le htotpos (min_le_right _ _)
  unfold commitSeekAgrees seekToGlobalTime specCommitSeek
  cases hf : findTargetEntry (deriveSequence clips)
      (max 0 (min t (totalDuration (deriveSequence clips)))) with
  | none => simp [hf]
  | some e =>
    simp only [hf]
    rw [findTargetEntry_local_clamped hval hge hle hf]

/-- Witness for C1 at the three-clip scenario and global time 12. -/
theorem commitSeek_resolves_clamped_witness :
    commitSeekAgrees ex3 12 ∧
    (seekToGlobalTime (deriveSequence ex3) 12).map (fun p => (p.1.clip.id, p.2)) =
      some ("c2", 2) ∧
    (seekToGlobalTime (deriveSequence ex3) 23).map (fun p => (p.1.clip.id, p.2)) =
      some ("c3", 8) :=
  commitSeek_resolves_clamped ex3 12 (by decide) (by decide)

/-- C2: the derived sequence is contiguous and anchored at zero: the first
entry starts at 0, each entry's window length is the clip's trimmed length,
consecutive entries abut, and the total duration is the last entry's
`sequenceEnd` (0 for the empty list). -/
theorem deriveSequence_contiguous (clips : List Clip) :
    (∀ h : 0 < (deriveSequence clips).length,
      ((deriveSequence clips).get ⟨0, h⟩).sequenceStart = 0) ∧
    (∀ e ∈ deriveSequence clips,
      e.sequenceEnd - e.sequenceStart = e.clip.«end» - e.clip.start) ∧
    (∀ i : Nat, ∀ h : i + 1 < (deriveSequence clips).length,
      ((deriveSequence clips).get ⟨i + 1, h⟩).sequenceStart =
        ((deriveSequence clips).get ⟨i, Nat.lt_of_succ_lt h⟩).sequenceEnd) ∧
    (∀ h : deriveSequence clips ≠ [],
      totalDuration (deriveSequence clips) =
        ((deriveSequence clips).getLast h).sequenceEnd) ∧
    (clips = [] → totalDuration (deriveSequence clips) = 0) := by
  refine ⟨fun h => head_deriveSequenceAux clips 0 h,
          fun e he => ?_,
          fun i h => adjacent_deriveSequenceAux clips 0 i h,
          fun h => ?_,
          fun h => by subst h; rfl⟩
  · rw [mem_deriveSequenceAux_spec he]
    ring
  · simp [totalDuration, List.getLast?_eq_getLast _ h]

/-- Witness for C2 at the three-clip scenario: the second entry starts where
the first one ends. -/
theorem deriveSequence_contiguous_witness :
    ((deriveSequence ex3).get ⟨0 + 1, by decide⟩).sequenceStart =
      ((deriveSequence ex3).get ⟨0, Nat.lt_of_succ_lt (by decide)⟩).sequenceEnd :=
  (deriveSequence_contiguous ex3).2.2.1 0 (by decide)

/-- C3: for every global time `t` in `[0, totalDuration)`, the commit
resolver maps `t` to an entry whose half-open window contains it (so an exact
boundary value resolves to the following entry) together with a local time,
and `toGlobalTimeFromLocal` maps that pair back to exactly `t`. -/
theorem globalToLocal_localToGlobal_roundtrip (clips : List Clip) (t : ℚ)
    (h0 : 0 ≤ t) (h1 : t < totalDuration (deriveSequence clips)) :
    ∃ e l, seekToGlobalTime (deriveSequence clips) t = some (e, l) ∧
      e.sequenceStart ≤ t ∧ t < e.sequenceEnd ∧
      toGlobalTimeFromLocal e l = t := by
  have hne : clips ≠ [] := by
    intro hc
    subst hc
    rw [show totalDuration (deriveSequence ([] : List Clip)) = 0 from rfl] at h1
    linarith
  have htot : totalDuration (deriveSequence clips) = sumDur clips :=
    totalDuration_deriveSequence hne
  have hstt : max 0 (min t (totalDuration (deriveSequence clips))) = t := by
    rw [min_eq_left (le_of_lt h1), max_eq_right h0]
  obtain ⟨e₀, hmem₀, hcond₀⟩ :=
    coverage_deriveSequenceAux clips 0 t h0 (by rw [htot] at h1; linarith)
  cases hf : (deriveSequence clips).find?
      (fun x => decide (x.sequenceStart ≤ t ∧ t < x.sequenceEnd)) with
  | none =>
    exfalso
    have hnone := List.find?_eq_none.mp hf e₀ hmem₀
    simp only [decide_eq_true_eq] at hnone
    exact hnone hcond₀
  | some e =>
    have hp : e.sequenceStart ≤ t ∧ t < e.sequenceEnd := by
      simpa using List.find?_some hf
    have hm : e ∈ deriveSequenceAux 0 clips := List.mem_of_find?_eq_some hf
    have hsp := mem_deriveSequenceAux_spec hm
    refine ⟨e, e.clip.start + (t - e.sequenceStart), ?_, hp.1, hp.2, ?_⟩
    · simp only [seekToGlobalTime, findTargetEntry]
      rw [hstt, hf]
    · have hlo : e.clip.start ≤ e.clip.start + (t - e.sequenceStart) := by
        linarith [hp.1]
      have hhi : e.clip.start + (t - e.sequenceStart) ≤ e.clip.«end» := by
        have h2 := hp.2
        rw [hsp] at h2
        linarith
      unfold toGlobalTimeFromLocal
      rw [clamp_of_mem hlo hhi]
      ring

/-- C4: both formatters derive the frame component as
`round(fractionalSeconds * 60)` — a fixed display granularity with no frame
rate input — and render each field zero-padded to two digits;
`formatTimecode 0.3 = "00:18"` and `formatDurationDisplay 65.5 = "01:05.30"`. -/
theorem format_functions_fixed_frame_base :
    (∀ t : ℚ, formatTimecode t =
      padStart2 (toString (⌊t⌋ : ℤ)) ++ ":" ++
        padStart2 (toString (round ((t - ((⌊t⌋ : ℤ) : ℚ)) * 60)))) ∧
    (∀ t : ℚ, formatDurationDisplay t =
      padStart2 (toString (⌊t / 60⌋ : ℤ)) ++ ":" ++
        padStart2 (toString (⌊jsRem t 60⌋ : ℤ)) ++ "." ++
        padStart2 (toString (round ((t - ((⌊t⌋ : ℤ) : ℚ)) * 60)))) ∧
    formatTimecode (3/10) = "00:18" ∧
    formatDurationDisplay (131/2) = "01:05.30" :=
  ⟨fun _ => rfl, fun _ => rfl,
    by with_unfolding_all decide, by with_unfolding_all decide⟩

/-- C10: the frame field is `round(fractional * 60)` with no carry into the
seconds field, so any input whose fractional part is at least `59.5/60`
renders a frame component of `60`; in particular
`formatTimecode 0.996 = "00:60"`. -/
theorem frame_field_can_reach_sixty (t : ℚ)
    (h : 119/120 ≤ t - ((⌊t⌋ : ℤ) : ℚ)) :
    formatTimecode t = padStart2 (toString (⌊t⌋ : ℤ)) ++ ":" ++ "60" ∧
    (60 : ℤ) ≤ round ((t - ((⌊t⌋ : ℤ) : ℚ)) * 60) ∧
    formatTimecode (249/250) = "00:60" := by
  have hfrac_lt : t - ((⌊t⌋ : ℤ) : ℚ) < 1 := by
    have hlt := Int.lt_floor_add_one t
    linarith
  have hround : round ((t - ((⌊t⌋ : ℤ) : ℚ)) * 60) = 60 := by
    rw [round_eq]
    apply Int.floor_eq_iff.mpr
    constructor
    · push_cast
      linarith
    · push_cast
      linarith
  refine ⟨?_, by rw [hround], by with_unfolding_all decide⟩
  have hpad : padStart2 (toString ((60 : ℤ))) = "60" := by
    with_unfolding_all decide
  simp only [formatTimecode]
  rw [hround, hpad]

/-- Witness for C10 at `t = 0.996` (fractional part `0.996 ≥ 119/120`). -/
theorem frame_field_can_reach_sixty_witness :
    119/120 ≤ (249/250 : ℚ) - ((⌊(249/250 : ℚ)⌋ : ℤ) : ℚ) ∧
    (formatTimecode (249/250) =
      padStart2 (toString (⌊(249/250 : ℚ)⌋ : ℤ)) ++ ":" ++ "60" ∧
    (60 : ℤ) ≤ round (((249/250 : ℚ) - ((⌊(249/250 : ℚ)⌋ : ℤ) : ℚ)) * 60) ∧
    formatTimecode (249/250) = "00:60") :=
  ⟨by with_unfolding_all decide,
    frame_field_can_reach_sixty (249/250) (by with_unfolding_all decide)⟩

/-! ### Trim bounds -/

theorem fpsOf_pos (c : Clip) : 0 < fpsOf c := by
  unfold fpsOf
  split
  · assumption
  · norm_num

theorem one_frame_le_minDuration (c : Clip) : 1 / fpsOf c ≤ minDuration c :=
  le_max_right _ _

theorem tenth_le_minDuration (c : Clip) : 1/10 ≤ minDuration c :=
  le_max_left _ _

theorem minDuration_pos (c : Clip) : 0 < minDuration c :=
  lt_of_lt_of_le (by norm_num) (tenth_le_minDuration c)

theorem handleTrimEnd_spec (c : Clip) (f : ℚ) (h : ClipInv c) :
    ClipInv (handleTrimEnd c f) ∧
    minDuration c ≤ (handleTrimEnd c f).«end» - (handleTrimEnd c f).start := by
  obtain ⟨h1, h2, h3⟩ := h
  have hfps := fpsOf_pos c
  have htrim : (0 : ℚ) ≤ ((max 1 (round f) : ℤ) : ℚ) / fpsOf c := by
    apply div_nonneg ?_ (le_of_lt hfps)
    have hz : (1 : ℤ) ≤ max 1 (round f) := le_max_left _ _
    have : (1 : ℚ) ≤ ((max 1 (round f) : ℤ) : ℚ) := by exact_mod_cast hz
    linarith
  have hmax := le_max_left (c.start + minDuration c)
    (c.«end» - ((max 1 (round f) : ℤ) : ℚ) / fpsOf c)
  refine ⟨⟨h1, ?_, ?_⟩, ?_⟩
  · exact hmax
  · show max (c.start + minDuration c)
        (c.«end» - ((max 1 (round f) : ℤ) : ℚ) / fpsOf c) ≤ c.originalDuration
    exact max_le (le_trans h2 h3) (by linarith)
  · show minDuration c ≤ max (c.start + minDuration c)
        (c.«end» - ((max 1 (round f) : ℤ) : ℚ) / fpsOf c) - c.start
    linarith

theorem trimDragStart_spec (c : Clip) (t : ℚ) (h : ClipInv c) :
    ClipInv (trimDragStart c t) ∧
    minDuration c ≤ (trimDragStart c t).«end» - (trimDragStart c t).start := by
  obtain ⟨h1, h2, h3⟩ := h
  have hmin := minDuration_pos c
  have hdur : ¬ c.originalDuration ≤ 0 := by push_neg; linarith
  unfold trimDragStart
  rw [if_neg hdur]
  have hlohi : (0 : ℚ) ≤ c.«end» - minDuration c := by linarith
  have hc := clamp_mem_Icc t hlohi
  exact ⟨⟨hc.1, by show clamp t 0 _ + minDuration c ≤ c.«end»; linarith [hc.2], h3⟩,
    by show minDuration c ≤ c.«end» - clamp t 0 _; linarith [hc.2]⟩

theorem trimDragEnd_spec (c : Clip) (t : ℚ) (h : ClipInv c) :
    ClipInv (trimDragEnd c t) ∧
    minDuration c ≤ (trimDragEnd c t).«end» - (trimDragEnd c t).start := by
  obtain ⟨h1, h2, h3⟩ := h
  have hdur : ¬ c.originalDuration ≤ 0 := by
    push_neg
    linarith [minDuration_pos c]
  unfold trimDragEnd
  rw [if_neg hdur]
  have hlohi : c.start + minDuration c ≤ c.originalDuration := le_trans h2 h3
  have hc := clamp_mem_Icc t hlohi
  exact ⟨⟨h1, hc.1, hc.2⟩,
    by show minDuration c ≤ clamp t _ _ - c.start; linarith [hc.1]⟩

theorem batchTrimClip_spec (c : Clip) (h : ClipInv c) :
    0 ≤ (batchTrimClip c).start ∧
    (batchTrimClip c).start < (batchTrimClip c).«end» ∧
    (batchTrimClip c).«end» ≤ (batchTrimClip c).originalDuration ∧
    1/10 ≤ (batchTrimClip c).«end» - (batchTrimClip c).start := by
  obtain ⟨h1, h2, h3⟩ := h
  have htenth := tenth_le_minDuration c
  have hmax := le_max_left (c.start + 1/10) (c.«end» - 18/60)
  refine ⟨h1, ?_, ?_, ?_⟩
  · show c.start < max (c.start + 1/10) (c.«end» - 18/60)
    linarith
  · show max (c.start + 1/10) (c.«end» - 18/60) ≤ c.originalDuration
    exact max_le (by linarith) (by linarith)
  · show 1/10 ≤ max (c.start + 1/10) (c.«end» - 18/60) - c.start
    linarith

/-- Counterexample for C6: `badClip` runs at 5 fps, so one frame is 0.2 s, and
it satisfies the trim invariant with a 0.25 s window; yet the batch Trim All
action leaves it with a 0.1 s window — below one frame at the clip's own rate. -/
theorem batchTrim_below_one_frame_counterexample :
    ClipInv badClip ∧
    (batchTrimClip badClip).«end» - (batchTrimClip badClip).start <
      1 / fpsOf badClip :=
  ⟨by with_unfolding_all decide, by with_unfolding_all decide⟩

/-- C6 as amended: the trim-handle drags and the per-clip Trim End button
preserve `0 ≤ start`, `start + minDuration ≤ end ≤ originalDuration` and keep
at least one frame (`1 / fps ≤ minDuration ≤ end - start`); the batch Trim All
action also clamps — preserving `0 ≤ start < end ≤ originalDuration` — but
enforces only a fixed 0.1 s floor rather than one frame at the clip's rate. -/
theorem trim_operations_clamped_amended (c : Clip) (t f : ℚ) (h : ClipInv c) :
    (ClipInv (handleTrimEnd c f) ∧
      1 / fpsOf c ≤ (handleTrimEnd c f).«end» - (handleTrimEnd c f).start) ∧
    (ClipInv (trimDragStart c t) ∧
      1 / fpsOf c ≤ (trimDragStart c t).«end» - (trimDragStart c t).start) ∧
    (ClipInv (trimDragEnd c t) ∧
      1 / fpsOf c ≤ (trimDragEnd c t).«end» - (trimDragEnd c t).start) ∧
    (0 ≤ (batchTrimClip c).start ∧
      (batchTrimClip c).start < (batchTrimClip c).«end» ∧
      (batchTrimClip c).«end» ≤ (batchTrimClip c).originalDuration ∧
      1/10 ≤ (batchTrimClip c).«end» - (batchTrimClip c).start) := by
  have hframe := one_frame_le_minDuration c
  obtain ⟨ha1, ha2⟩ := handleTrimEnd_spec c f h
  obtain ⟨hb1, hb2⟩ := trimDragStart_spec c t h
  obtain ⟨hc1, hc2⟩ := trimDragEnd_spec c t h
  exact ⟨⟨ha1, le_trans hframe ha2⟩, ⟨hb1, le_trans hframe hb2⟩,
    ⟨hc1, le_trans hframe hc2⟩, batchTrimClip_spec c h⟩

/-- A well-formed 30 fps clip used as the witness input for the amended C6. -/
def wClip : Clip :=
  { id := "w", url := "uw", name := "nw", originalDuration := 10,
    start := 1, «end» := 9, fps := 30, isSelected := false }

/-- Witness for the amended C6 at a 30 fps clip trimmed from 10 s of footage. -/
theorem trim_operations_clamped_amended_witness :
    ClipInv wClip ∧
    (ClipInv (trimDragEnd wClip 2) ∧
      1 / fpsOf wClip ≤ (trimDragEnd wClip 2).«end» - (trimDragEnd wClip 2).start) :=
  ⟨by with_unfolding_all decide,
    (trim_operations_clamped_amended wClip 2 2 (by with_unfolding_all decide)).2.2.1⟩

/-- Witness for C3 at the three-clip scenario and global time 12. -/
theorem globalToLocal_localToGlobal_roundtrip_witness :
    0 ≤ (12 : ℚ) ∧ 12 < totalDuration (deriveSequence ex3) ∧
    (∃ e l, seekToGlobalTime (deriveSequence ex3) 12 = some (e, l) ∧
      e.sequenceStart ≤ 12 ∧ 12 < e.sequenceEnd ∧
      toGlobalTimeFromLocal e l = 12) :=
  ⟨by decide, by with_unfolding_all decide,
    globalToLocal_localToGlobal_roundtrip ex3 12 (by decide)
      (by with_unfolding_all decide)⟩

/-! ### Preview snapshot restoration (C5) -/

theorem previewAt_of_previewing (seq : List SeqEntry) {s : PlayerState}
    (t : ℚ) (h : s.isPreviewing = true) :
    (previewAtGlobalTime seq s t).isPreviewing = true ∧
    (previewAtGlobalTime seq s t).previewRestore = s.previewRestore ∧
    (previewAtGlobalTime seq s t).activeClipId = s.activeClipId := by
  unfold previewAtGlobalTime
  by_cases hseq : seq = []
  · rw [if_pos hseq]
    exact ⟨h, rfl, rfl⟩
  · rw [if_neg hseq, h, if_pos rfl]
    dsimp only
    cases hfe : findTargetEntry seq (max 0 (min t (totalDuration seq))) with
    | none => exact ⟨h, rfl, rfl⟩
    | some e => exact ⟨h, rfl, rfl⟩

theorem previewAt_of_not_previewing {seq : List SeqEntry} {s : PlayerState}
    (t : ℚ) (hseq : seq ≠ []) (h : s.isPreviewing = false) :
    (previewAtGlobalTime seq s t).isPreviewing = true ∧
    (previewAtGlobalTime seq s t).previewRestore =
      some ⟨s.videoSrc, s.videoTime, s.globalTimeDisplay⟩ ∧
    (previewAtGlobalTime seq s t).activeClipId = s.activeClipId := by
  unfold previewAtGlobalTime
  rw [if_neg hseq, h, if_neg (by simp)]
  dsimp only
  cases hfe : findTargetEntry seq (max 0 (min t (totalDuration seq))) with
  | none => exact ⟨rfl, rfl, rfl⟩
  | some e => exact ⟨rfl, rfl, rfl⟩

theorem foldl_previewAt_previewing {seq : List SeqEntry} (ts : List ℚ)
    {u : PlayerState} (h : u.isPreviewing = true) :
    (ts.foldl (previewAtGlobalTime seq) u).isPreviewing = true ∧
    (ts.foldl (previewAtGlobalTime seq) u).previewRestore = u.previewRestore ∧
    (ts.foldl (previewAtGlobalTime seq) u).activeClipId = u.activeClipId := by
  induction ts generalizing u with
  | nil => exact ⟨h, rfl, rfl⟩
  | cons a rest ih =>
    obtain ⟨h1, h2, h3⟩ := previewAt_of_previewing seq a h
    obtain ⟨g1, g2, g3⟩ := ih h1
    exact ⟨g1, g2.trans h2, g3.trans h3⟩

/-- C5: from a committed (non-previewing) state whose video source is the
active clip's url, a first `previewAtGlobalTime` captures the
(source, local time, display) snapshot; after any number of further
`previewAtGlobalTime` calls, `endPreview` restores exactly that triplet and
clears the previewing flag; and `endPreview` on a non-previewing state is the
identity. -/
theorem preview_endPreview_restores_snapshot (seq : List SeqEntry)
    (s : PlayerState) (t : ℚ) (ts : List ℚ)
    (hseq : seq ≠ []) (hnp : s.isPreviewing = false) (hne : s.videoSrc ≠ "")
    (hsrc : ∀ e ∈ seq, e.clip.id = s.activeClipId → e.clip.url = s.videoSrc) :
    endPreview seq s = s ∧
    (endPreview seq (ts.foldl (previewAtGlobalTime seq)
        (previewAtGlobalTime seq s t))).videoSrc = s.videoSrc ∧
    (endPreview seq (ts.foldl (previewAtGlobalTime seq)
        (previewAtGlobalTime seq s t))).videoTime = s.videoTime ∧
    (endPreview seq (ts.foldl (previewAtGlobalTime seq)
        (previewAtGlobalTime seq s t))).globalTimeDisplay =
      s.globalTimeDisplay ∧
    (endPreview seq (ts.foldl (previewAtGlobalTime seq)
        (previewAtGlobalTime seq s t))).isPreviewing = false := by
  obtain ⟨hp1, hp2, hp3⟩ := previewAt_of_not_previewing t hseq hnp
  obtain ⟨hq1, hq2, hq3⟩ := foldl_previewAt_previewing ts hp1
  refine ⟨by unfold endPreview; rw [if_pos hnp], ?_⟩
  unfold endPreview
  rw [hq1, if_neg (by simp)]
  dsimp only
  rw [hq2.trans hp2, hq3.trans hp3]
  dsimp only
  cases hfind : seq.find? (fun e => decide (e.clip.id = s.activeClipId)) with
  | none =>
    dsimp only
    rw [if_neg hne]
    exact ⟨rfl, rfl, rfl, rfl⟩
  | some cEntry =>
    have hurl : cEntry.clip.url = s.videoSrc :=
      hsrc cEntry (List.mem_of_find?_eq_some hfind)
        (by simpa using List.find?_some hfind)
    dsimp only
    rw [hurl, if_neg hne]
    exact ⟨rfl, rfl, rfl, rfl⟩

/-! ### Commit seek clamping and the empty sequence (C7) -/

/-- C7: the commit seek time is the clamp of the request to
`[0, totalDuration]` — in-range requests pass through, negative requests go
to 0, requests beyond the end go to `totalDuration` — and `seekStep` is a
total function whose display always holds that clamped value; on an empty
clip list the total duration is 0 and a seek only rewrites the display to 0,
so a state already displaying 0 is left entirely unchanged. -/
theorem seek_clamps_and_empty_noop (seq : List SeqEntry) (s : PlayerState)
    (t : ℚ) (htot : 0 ≤ totalDuration seq) :
    (0 ≤ max 0 (min t (totalDuration seq)) ∧
      max 0 (min t (totalDuration seq)) ≤ totalDuration seq) ∧
    (0 ≤ t → t ≤ totalDuration seq → max 0 (min t (totalDuration seq)) = t) ∧
    (t < 0 → max 0 (min t (totalDuration seq)) = 0) ∧
    (totalDuration seq < t →
      max 0 (min t (totalDuration seq)) = totalDuration seq) ∧
    ((seekStep seq s t).globalTimeDisplay = max 0 (min t (totalDuration seq))) ∧
    (seq = [] →
      totalDuration seq = 0 ∧
      seekStep seq s t = { s with globalTimeDisplay := 0 } ∧
      (s.globalTimeDisplay = 0 → seekStep seq s t = s)) := by
  refine ⟨⟨le_max_left _ _, max_le htot (min_le_right _ _)⟩,
    fun h0 hle => by rw [min_eq_left hle, max_eq_right h0],
    fun hlt => by
      rw [min_eq_left (le_trans (le_of_lt hlt) htot), max_eq_left (le_of_lt hlt)],
    fun hgt => by rw [min_eq_right (le_of_lt hgt), max_eq_right htot],
    ?_, ?_⟩
  · unfold seekStep
    dsimp only
    cases hfe : findTargetEntry seq (max 0 (min t (totalDuration seq))) with
    | none => rfl
    | some e => rfl
  · intro hempty
    subst hempty
    have hzero : max 0 (min t (totalDuration ([] : List SeqEntry))) = 0 :=
      max_eq_left (min_le_right t _)
    have hstep : seekStep ([] : List SeqEntry) s t =
        { s with globalTimeDisplay := 0 } := by
      unfold seekStep findTargetEntry
      rw [hzero]
      rfl
    refine ⟨rfl, hstep, fun hd => ?_⟩
    rw [hstep, ← hd]

/-! ### Natural end-of-clip advance (C8) -/

theorem autoAdvance_iterate (seq : List SeqEntry) (k i : Nat)
    (hi : i < seq.length) :
    (autoAdvance seq)^[k] i = (i + k) % seq.length := by
  induction k generalizing i with
  | zero => simp [Nat.mod_eq_of_lt hi]
  | succ k ih =>
    have hn0 : 0 < seq.length := lt_of_le_of_lt (Nat.zero_le i) hi
    rw [Function.iterate_succ_apply,
      show autoAdvance seq i = (i + 1) % seq.length from rfl,
      ih ((i + 1) % seq.length) (Nat.mod_lt _ hn0), Nat.mod_add_mod]
    congr 1
    omega

/-- C8: during committed playback, once the active clip's local time reaches
its trimmed end, `handleTimeUpdate` switches to the next sequence entry —
`(index + 1) % length`, wrapping from the last entry to the first — starts at
that entry's trimmed start and keeps playing; and iterating the advance map
reaches every entry index within one pass (fewer than `length` steps). -/
theorem natural_advance_wraps (seq : List SeqEntry) (i : Nat) (localTime : ℚ)
    (hi : i < seq.length)
    (hl : (seq.get ⟨i, hi⟩).clip.«end» ≤ localTime) :
    (∃ hn : (i + 1) % seq.length < seq.length,
      handleTimeUpdateStep seq ⟨i, localTime, true⟩ =
        { activeIndex := autoAdvance seq i,
          localTime := (seq.get ⟨(i + 1) % seq.length, hn⟩).clip.start,
          playing := true }) ∧
    (∀ j, j < seq.length → ∃ k, k < seq.length ∧ (autoAdvance seq)^[k] i = j) := by
  have hn0 : 0 < seq.length := lt_of_le_of_lt (Nat.zero_le i) hi
  have hn : (i + 1) % seq.length < seq.length := Nat.mod_lt _ hn0
  constructor
  · refine ⟨hn, ?_⟩
    have hl' : seq[i].clip.«end» ≤ localTime := hl
    simp [handleTimeUpdateStep, List.getElem?_eq_getElem hi,
      List.getElem?_eq_getElem hn, hl', autoAdvance]
  · intro j hj
    refine ⟨(seq.length + j - i) % seq.length, Nat.mod_lt _ hn0, ?_⟩
    rw [autoAdvance_iterate seq _ i hi, Nat.add_mod_mod,
      show i + (seq.length + j - i) = seq.length + j by omega,
      Nat.add_mod_left, Nat.mod_eq_of_lt hj]

/-! ### Preview request coalescing (C9) -/

theorem foldl_overwriteRequest (cell0 : Option ℚ) (ts : List ℚ)
    (h : ts ≠ []) :
    ts.foldl overwriteRequest cell0 = ts.getLast? := by
  induction ts generalizing cell0 with
  | nil => exact absurd rfl h
  | cons a rest ih =>
    cases rest with
    | nil => rfl
    | cons b rest2 =>
      rw [List.foldl_cons, ih (overwriteRequest cell0 a) (by simp),
        List.getLast?_cons_cons]

/-- C9: every preview request overwrites the single pending-target cell, so
after any burst of requests the cell holds exactly the last one; one worker
iteration consumes it — rendering precisely that last target — and a second
iteration finds the cell empty and renders nothing. -/
theorem preview_requests_coalesced (cell0 : Option ℚ) (ts : List ℚ)
    (h : ts ≠ []) :
    ts.foldl overwriteRequest cell0 = some (ts.getLast h) ∧
    workerIteration (ts.foldl overwriteRequest cell0) =
      (none, some (ts.getLast h)) ∧
    (workerIteration (workerIteration (ts.foldl overwriteRequest cell0)).1).2 =
      none := by
  have hcell : ts.foldl overwriteRequest cell0 = some (ts.getLast h) := by
    rw [foldl_overwriteRequest cell0 ts h, List.getLast?_eq_getLast _ h]
  refine ⟨hcell, ?_, ?_⟩
  · rw [hcell]
    rfl
  · rw [hcell]
    rfl

/-! ### Witness states and inputs -/

/-- A committed state on the first example clip, used as witness input. -/
def exState : PlayerState :=
  { videoSrc := "u1", videoTime := 0, globalTimeDisplay := 0,
    isPreviewing := false, previewRestore := none, activeClipId := "c1" }

/-- Witness for C5: preview at 5 s, scrub through 7 s, 2 s, 9 s, then end the
preview; the committed state on clip `c1` comes back exactly. -/
theorem preview_endPreview_restores_snapshot_witness :
    endPreview (deriveSequence ex3) exState = exState ∧
    (endPreview (deriveSequence ex3) (([7, 2, 9] : List ℚ).foldl
        (previewAtGlobalTime (deriveSequence ex3))
        (previewAtGlobalTime (deriveSequence ex3) exState 5))).videoSrc =
      exState.videoSrc ∧
    (endPreview (deriveSequence ex3) (([7, 2, 9] : List ℚ).foldl
        (previewAtGlobalTime (deriveSequence ex3))
        (previewAtGlobalTime (deriveSequence ex3) exState 5))).videoTime =
      exState.videoTime ∧
    (endPreview (deriveSequence ex3) (([7, 2, 9] : List ℚ).foldl
        (previewAtGlobalTime (deriveSequence ex3))
        (previewAtGlobalTime (deriveSequence ex3) exState 5))).globalTimeDisplay =
      exState.globalTimeDisplay ∧
    (endPreview (deriveSequence ex3) (([7, 2, 9] : List ℚ).foldl
        (previewAtGlobalTime (deriveSequence ex3))
        (previewAtGlobalTime (deriveSequence ex3) exState 5))).isPreviewing =
      false :=
  preview_endPreview_restores_snapshot (deriveSequence ex3) exState 5 [7, 2, 9]
    (by with_unfolding_all decide) (by decide) (by decide)
    (by with_unfolding_all decide)

/-- Witness for C7 on the empty sequence with a negative request. -/
theorem seek_clamps_and_empty_noop_witness :
    (0 : ℚ) ≤ totalDuration ([] : List SeqEntry) ∧
    ((0 ≤ max 0 (min (-3 : ℚ) (totalDuration ([] : List SeqEntry))) ∧
      max 0 (min (-3 : ℚ) (totalDuration ([] : List SeqEntry))) ≤
        totalDuration ([] : List SeqEntry)) ∧
    (0 ≤ (-3 : ℚ) → (-3 : ℚ) ≤ totalDuration ([] : List SeqEntry) →
      max 0 (min (-3 : ℚ) (totalDuration ([] : List SeqEntry))) = -3) ∧
    ((-3 : ℚ) < 0 →
      max 0 (min (-3 : ℚ) (totalDuration ([] : List SeqEntry))) = 0) ∧
    (totalDuration ([] : List SeqEntry) < -3 →
      max 0 (min (-3 : ℚ) (totalDuration ([] : List SeqEntry))) =
        totalDuration ([] : List SeqEntry)) ∧
    ((seekStep ([] : List SeqEntry) exState (-3)).globalTimeDisplay =
      max 0 (min (-3 : ℚ) (totalDuration ([] : List SeqEntry)))) ∧
    (([] : List SeqEntry) = [] →
      totalDuration ([] : List SeqEntry) = 0 ∧
      seekStep ([] : List SeqEntry) exState (-3) =
        { exState with globalTimeDisplay := 0 } ∧
      (exState.globalTimeDisplay = 0 →
        seekStep ([] : List SeqEntry) exState (-3) = exState))) :=
  ⟨by decide, seek_clamps_and_empty_noop ([] : List SeqEntry) exState (-3)
    (by decide)⟩

/-- Witness for C8: the last example entry (index 2) at its trimmed end 8 s
wraps to index 0. -/
theorem natural_advance_wraps_witness :
    2 < (deriveSequence ex3).length ∧
    ((∃ hn : (2 + 1) % (deriveSequence ex3).length < (deriveSequence ex3).length,
      handleTimeUpdateStep (deriveSequence ex3) ⟨2, 8, true⟩ =
        { activeIndex := autoAdvance (deriveSequence ex3) 2,
          localTime := ((deriveSequence ex3).get
            ⟨(2 + 1) % (deriveSequence ex3).length, hn⟩).clip.start,
          playing := true }) ∧
    (∀ j, j < (deriveSequence ex3).length →
      ∃ k, k < (deriveSequence ex3).length ∧
        (autoAdvance (deriveSequence ex3))^[k] 2 = j)) :=
  ⟨by decide, natural_advance_wraps (deriveSequence ex3) 2 8 (by decide)
    (by with_unfolding_all decide)⟩

/-- Witness for C9: five rapid requests collapse to one render of the last. -/
theorem preview_requests_coalesced_witness :
    ([1, 2, 3, 4, 5] : List ℚ) ≠ [] ∧
    (([1, 2, 3, 4, 5] : List ℚ).foldl overwriteRequest none =
      some (([1, 2, 3, 4, 5] : List ℚ).getLast (by decide)) ∧
    workerIteration (([1, 2, 3, 4, 5] : List ℚ).foldl overwriteRequest none) =
      (none, some (([1, 2, 3, 4, 5] : List ℚ).getLast (by decide))) ∧
    (workerIteration (workerIteration
      (([1, 2, 3, 4, 5] : List ℚ).foldl overwriteRequest none)).1).2 = none) :=
  ⟨by decide, preview_requests_coalesced none [1, 2, 3, 4, 5] (by decide)⟩

end Framecut
